import Mathlib

/-!
Verification of the parquet layout-optimizer repository.

Shallow embedding of the decision logic of the three scripts:
* `scripts/analyze_stats.py` — pruning simulator (overlap scan, fetch
  simulation, skip-ratio classification);
* `scripts/optimizeParquet.py` — layout optimizer (global sort by the query
  key, file-level chunking, row-group splitting on write);
* `scripts/checkParquetMetadata.py` — metadata inspector (row-group analysis).

Tables are lists of rows; a row is a pair of its query-key value (the
`origin` column, or any linearly ordered scalar) and the rest of the row.
-/

namespace FrontTest

variable {α β γ : Type}

/-! ### Pruning simulator: `scripts/analyze_stats.py` -/

/-- One step of the overlap scan of `analyze_stats.py` (lines 55–92).
State is `(prev_max, overlaps)`; `prev_max` starts as `None`.  For a row
group whose statistics are set, an overlap is flagged when
`min_val < prev_max`, and `prev_max` becomes this group's `max`. -/
def overlapStep [LinearOrder α] : Option α × Nat → α × α → Option α × Nat
  | (prevMax, ovl), (mn, mx) =>
    match prevMax with
    | some pm => (some mx, if mn < pm then ovl + 1 else ovl)
    | none => (some mx, ovl)

/-- The overlap count of `analyze_stats.py`: fold of `overlapStep` over the
`(min, max)` statistics of the row groups that have statistics, in physical
order, starting from `(None, 0)`. -/
def overlapCount [LinearOrder α] (stats : List (α × α)) : Nat :=
  (stats.foldl overlapStep (none, 0)).2

/-- Fetch simulation of `analyze_stats.py` (lines 124–131): for each entry of
`stats_list`, `would_download` is incremented when
`stat['min'] <= test_value <= stat['max']`, else `would_skip` is
incremented.  Returns `(would_download, would_skip)`. -/
def fetchCounts [LinearOrder α] (stats : List (α × α)) (v : α) : Nat × Nat :=
  stats.foldl
    (fun acc s => if s.1 ≤ v ∧ v ≤ s.2 then (acc.1 + 1, acc.2) else (acc.1, acc.2 + 1))
    (0, 0)

/-- `stats_list` as built by the row-group loop (lines 61–94): only the row
groups whose `is_stats_set` holds contribute; the others are printed as
`PAS DE STATS` and dropped from the list. -/
def statsOnly (parts : List (Option (α × α))) : List (α × α) :=
  parts.filterMap id

/-- The fetch simulation as actually run by `analyze_stats.py`: it iterates
over `stats_list`, i.e. only over the partitions that carry statistics. -/
def simFetchCounts [LinearOrder α] (parts : List (Option (α × α))) (v : α) :
    Nat × Nat :=
  fetchCounts (statsOnly parts) v

/-- `skip_percentage = (would_skip / total_rg) * 100` (line 134), as an exact
rational. -/
def skipPct (skipped total : Nat) : ℚ :=
  (skipped : ℚ) / (total : ℚ) * 100

/-- Classification of the fetch-simulation result (lines 140–145):
`skip_percentage > 80` ⇒ optimal, `elif skip_percentage > 50` ⇒ acceptable,
`else` ⇒ poor. -/
def classifySkip (skipped total : Nat) : String :=
  if skipPct skipped total > 80 then "optimal"
  else if skipPct skipped total > 50 then "acceptable"
  else "poor"

/-- Integer column statistics as the overlap scan of `analyze_stats.py` sees
them: lines 67–68 convert `stats.min` / `stats.max` with `str()` before
comparing, so an integer-typed column is compared as decimal strings. -/
def strStats (stats : List (Int × Int)) : List (String × String) :=
  stats.map fun s => (toString s.1, toString s.2)

/-! ### CLI entry points -/

/-- Process exit status of the directory branch of `main` in
`analyze_stats.py` (lines 176–184): `sys.exit(1)` when the glob finds no
parquet files, otherwise the script analyses the first file and returns
normally (exit status 0). -/
def analyzeStatsDirExit (files : List String) : Nat :=
  if files.isEmpty then 1 else 0

/-- Process exit status of the directory branch of `main` in
`checkParquetMetadata.py` (lines 186–196): `sys.exit(1)` when the glob finds
no parquet files, otherwise exit status 0. -/
def checkMetadataDirExit (files : List String) : Nat :=
  if files.isEmpty then 1 else 0

/-- Process exit status of `main` in `optimizeParquet.py` (lines 100–116):
`sys.exit(1)` only when the input directory does not exist.  An existing
directory whose glob finds no parquet files prints `Found 0 parquet files`,
runs the per-file loop zero times and reaches the normal end of `main`
(exit status 0); per-file exceptions are caught inside the loop and do not
change the exit status either. -/
def optimizeMainExit (inputDirExists : Bool) (files : List String) : Nat :=
  if inputDirExists then 0 else 1

/-! ### Metadata inspector: `scripts/checkParquetMetadata.py` -/

/-- Row-group analysis of `check_parquet_file` (lines 50–95): the reported
row count and row-group (partition) count, and the average row-group size
`sum(row_group_sizes) / len(row_group_sizes)` computed at line 86.  With
zero row groups that division raises `ZeroDivisionError`, which propagates
to the handler at line 170; the invocation then prints an error and returns
`False`. -/
def check_parquet_file (numRows : Nat) (rgSizes : List Nat) :
    Except String (Nat × Nat × ℚ) :=
  if rgSizes.length = 0 then
    Except.error "ZeroDivisionError: division by zero"
  else
    Except.ok (numRows, rgSizes.length, (rgSizes.sum : ℚ) / (rgSizes.length : ℚ))

/-! ### Layout optimizer: `scripts/optimizeParquet.py` -/

/-- The global sort of `optimize_parquet_file` (lines 41–44):
`pa.compute.sort_indices(table, sort_keys=[("origin", "ascending")])`
followed by `table.take`, i.e. a stable ascending reorder of the rows by
the query-key column (the first component of each row pair). -/
def sortRows [LinearOrder α] (t : List (α × β)) : List (α × β) :=
  t.mergeSort fun a b => decide (a.1 ≤ b.1)

/-- File-level chunking of `optimize_parquet_file` (lines 50–64): when
`num_rows > max_rows_per_file`, chunk `i` of `num_chunks =
(num_rows + max_rows_per_file - 1) // max_rows_per_file` is
`table.slice(start, end - start)` with `start = i * max_rows_per_file` and
`end = min((i + 1) * max_rows_per_file, num_rows)`; otherwise the whole
sorted table becomes the single output file. -/
def fileChunks (c : Nat) (sorted : List (α × β)) : List (List (α × β)) :=
  if sorted.length > c then
    (List.range ((sorted.length + c - 1) / c)).map fun i =>
      (sorted.drop (i * c)).take (min ((i + 1) * c) sorted.length - i * c)
  else [sorted]

/-- `optimize_parquet_file` (lines 24–64): sort the table by the query key,
then split it into output files by the row cap.  Each element of the result
is the row sequence of one output file, in file-name (chunk-index) order. -/
def optimize_parquet_file [LinearOrder α] (c : Nat) (t : List (α × β)) :
    List (List (α × β)) :=
  fileChunks c (sortRows t)

/-- Modelled from the spec: the external columnar writer invoked by
`write_optimized_parquet` (line 80, `row_group_size=100_000`) splits a
written table into row groups — contiguous runs of at most `g` rows.  The
writer itself is third-party library code, not part of this repository. -/
def chunksOf (g : Nat) (l : List γ) : List (List γ) :=
  if h : l.length = 0 ∨ g = 0 then []
  else
    l.take g :: chunksOf g (l.drop g)
termination_by l.length
decreasing_by
  push_neg at h
  simp only [List.length_drop]
  exact Nat.sub_lt (Nat.pos_of_ne_zero h.1) (Nat.pos_of_ne_zero h.2)

/-- Modelled from the spec: with `write_statistics=True` (line 77) the
external writer records, per row group, Column Statistics for the query-key
column whose `min`/`max` are the least and greatest key values over the row
group's rows (spec §3 invariant `min <= value <= max`); an empty row group
has no statistics. -/
def chunkStats [LinearOrder α] : List (α × β) → Option (α × α)
  | [] => none
  | r :: rs => some (rs.foldl (fun acc x => (min acc.1 x.1, max acc.2 x.1)) (r.1, r.1))

/-- The `(min, max)` statistics of a written layout's row groups, in
physical order, restricted to the row groups that have statistics — the
shape `analyze_stats.py` consumes as `stats_list`. -/
def layoutStats [LinearOrder α] (chunks : List (List (α × β))) : List (α × α) :=
  chunks.filterMap chunkStats

/-! ### Theorems about the pruning simulator -/

theorem fetchCounts_foldl [LinearOrder α] (v : α) (l : List (α × α)) (a b : Nat) :
    l.foldl
      (fun acc s => if s.1 ≤ v ∧ v ≤ s.2 then (acc.1 + 1, acc.2) else (acc.1, acc.2 + 1))
      (a, b)
      = (a + l.countP (fun s => decide (s.1 ≤ v ∧ v ≤ s.2)),
         b + l.countP (fun s => !decide (s.1 ≤ v ∧ v ≤ s.2))) := by
  induction l generalizing a b with
  | nil => simp
  | cons s l ih =>
    rw [List.foldl_cons, List.countP_cons, List.countP_cons]
    by_cases h : s.1 ≤ v ∧ v ≤ s.2
    · rw [if_pos h, ih, Prod.mk.injEq]
      simp only [decide_eq_true h, Bool.not_true, if_true]
      constructor <;> simp <;> omega
    · rw [if_neg h, ih, Prod.mk.injEq]
      simp only [decide_eq_false h, Bool.not_false, if_true]
      constructor <;> simp <;> omega

theorem countP_not_add {p : α × α → Bool} (l : List (α × α)) :
    l.countP p + l.countP (fun s => !p s) = l.length := by
  induction l with
  | nil => simp
  | cons s l ih =>
    rw [List.countP_cons, List.countP_cons]
    cases hp : p s <;> simp [hp] <;> omega

/-- C2: in the fetch simulation, a partition that carries statistics is
counted as fetched (`would_download`) exactly when
`min ≤ v ∧ v ≤ max` — both bounds inclusive, in the column value order —
and counted as skipped (`would_skip`) otherwise; every statistics-carrying
partition is counted exactly once. -/
theorem fetch_simulation_inclusive_bounds [LinearOrder α]
    (stats : List (α × α)) (v : α) :
    fetchCounts stats v
      = (stats.countP fun s => decide (s.1 ≤ v ∧ v ≤ s.2),
         stats.countP fun s => !decide (s.1 ≤ v ∧ v ≤ s.2))
    ∧ (fetchCounts stats v).1 + (fetchCounts stats v).2 = stats.length := by
  have h0 : fetchCounts stats v
      = (stats.countP fun s => decide (s.1 ≤ v ∧ v ≤ s.2),
         stats.countP fun s => !decide (s.1 ≤ v ∧ v ≤ s.2)) := by
    rw [fetchCounts, fetchCounts_foldl v stats 0 0]
    simp
  exact ⟨h0, by rw [h0]; exact countP_not_add stats⟩

/-- C3: a `NoStatistics` partition is not treated as always-fetched — it is
silently dropped from the fetch simulation.  With one statistics-free
partition and one partition `(min, max) = (0, 1)`, lookup value `5` yields
`(would_download, would_skip) = (0, 1)`: the statistics-free partition is
neither fetched nor skipped, and the total count is `1`, not `2`. -/
theorem no_stats_partition_excluded :
    simFetchCounts [none, some ((0 : Nat), 1)] 5 = (0, 1)
      ∧ (statsOnly [none, some ((0 : Nat), 1)]).length = 1 := by
  constructor <;> decide

/-- C4: the overlap scan compares `str(stats.min)` with `str(stats.max)`,
so an integer key column is compared as decimal strings: for adjacent
partitions with ranges `(5, 9)` and `(10, 12)` — numerically sorted, no
overlap under the integer order — the scan flags one overlap because
`"10" < "9"` lexicographically. -/
theorem overlap_string_comparison_bug :
    overlapCount (strStats [(5, 9), (10, 12)]) = 1
      ∧ overlapCount ([(5, 9), (10, 12)] : List (Int × Int)) = 0 := by
  constructor
  · have h : (toString (10 : Int)) < (toString (9 : Int)) := by
      rw [show toString (10 : Int) = "10" from rfl,
        show toString (9 : Int) = "9" from rfl, String.lt_iff_toList_lt]
      decide
    simp [overlapCount, strStats, overlapStep, h]
  · decide

/-- C7 (corrected): the classification of `analyze_stats.py` maps skip
percentage strictly above 80 to "optimal", strictly above 50 and at most 80
to "acceptable", and at most 50 — including exactly 50 — to "poor". -/
theorem classify_skip_thresholds (skipped total : Nat) (h : 0 < total) :
    (classifySkip skipped total = "optimal" ↔ 80 < skipPct skipped total)
    ∧ (classifySkip skipped total = "acceptable" ↔
        50 < skipPct skipped total ∧ skipPct skipped total ≤ 80)
    ∧ (classifySkip skipped total = "poor" ↔ skipPct skipped total ≤ 50) := by
  unfold classifySkip
  split_ifs with h1 h2
  · exact ⟨iff_of_true rfl h1,
      iff_of_false (by simp) (fun hs => absurd h1 (not_lt.mpr hs.2)),
      iff_of_false (by simp) (not_le.mpr (by linarith))⟩
  · exact ⟨iff_of_false (by simp) h1,
      iff_of_true rfl ⟨h2, not_lt.mp h1⟩,
      iff_of_false (by simp) (not_le.mpr h2)⟩
  · exact ⟨iff_of_false (by simp) h1,
      iff_of_false (by simp) (fun hs => absurd hs.1 h2),
      iff_of_true rfl (not_lt.mp h2)⟩

/-- C7 counterexample: a skip ratio of exactly 50% (1 of 2 partitions
skipped) is classified "poor", not "acceptable", because line 142 tests
`skip_percentage > 50` strictly. -/
theorem skip_ratio_half_classified_poor :
    skipPct 1 2 = 50 ∧ classifySkip 1 2 = "poor" := by
  constructor
  · norm_num [skipPct]
  · norm_num [classifySkip, skipPct]

/-- Witness for `classify_skip_thresholds` at `skipped = 4`, `total = 5`. -/
theorem classify_skip_thresholds_witness :
    (0 : Nat) < 5 ∧
      ((classifySkip 4 5 = "optimal" ↔ 80 < skipPct 4 5)
        ∧ (classifySkip 4 5 = "acceptable" ↔ 50 < skipPct 4 5 ∧ skipPct 4 5 ≤ 80)
        ∧ (classifySkip 4 5 = "poor" ↔ skipPct 4 5 ≤ 50)) :=
  ⟨by decide, classify_skip_thresholds 4 5 (by decide)⟩

/-! ### Theorems about the CLI entry points and the inspector -/

/-- C8 counterexample: on an existing input directory with no parquet files,
`optimizeParquet.py` does not exit non-zero — `main` prints
`Found 0 parquet files`, runs the loop zero times and exits 0. -/
theorem optimizer_empty_dir_exit_zero :
    optimizeMainExit true [] = 0 := rfl

/-- C8 (corrected): with no matching files in a supplied directory, the
simulator (`analyze_stats.py`) and inspector (`checkParquetMetadata.py`)
tools exit with status 1, while the optimizer tool exits with status 0. -/
theorem empty_dir_exit_codes :
    analyzeStatsDirExit [] = 1
      ∧ checkMetadataDirExit [] = 1
      ∧ optimizeMainExit true [] = 0 := by
  exact ⟨rfl, rfl, rfl⟩

/-- C9: on a storage unit with 0 rows and hence 0 row groups, the
inspector's row-group analysis raises `ZeroDivisionError` at
`sum(row_group_sizes) / len(row_group_sizes)` (line 86), so the invocation
reports a failure instead of completing without error. -/
theorem inspector_zero_rowgroups_error :
    check_parquet_file 0 [] = Except.error "ZeroDivisionError: division by zero" := rfl

/-! ### Row-group chunking lemmas -/

theorem chunksOf_nil (g : Nat) : chunksOf g ([] : List γ) = [] := by
  rw [chunksOf]
  simp

theorem chunksOf_zero (l : List γ) : chunksOf 0 l = [] := by
  rw [chunksOf]
  simp

theorem chunksOf_cons {g : Nat} (hg : 0 < g) {l : List γ} (hl : l ≠ []) :
    chunksOf g l = l.take g :: chunksOf g (l.drop g) := by
  rw [chunksOf, dif_neg]
  push_neg
  exact ⟨fun h => hl (List.length_eq_zero.mp h), Nat.pos_iff_ne_zero.mp hg⟩

theorem flatten_chunksOf {g : Nat} (hg : 0 < g) (l : List γ) :
    (chunksOf g l).flatten = l := by
  suffices H : ∀ n (l : List γ), l.length ≤ n → (chunksOf g l).flatten = l from
    H l.length l le_rfl
  intro n
  induction n with
  | zero =>
    intro l hl
    rw [List.length_eq_zero.mp (Nat.le_zero.mp hl), chunksOf_nil, List.flatten_nil]
  | succ n ih =>
    intro l hl
    rcases eq_or_ne l [] with h | h
    · rw [h, chunksOf_nil, List.flatten_nil]
    · rw [chunksOf_cons hg h, List.flatten_cons,
        ih (l.drop g) (by simp [List.length_drop]; omega),
        List.take_append_drop]

theorem mem_chunksOf {g : Nat} (hg : 0 < g) {l : List γ} {A : List γ}
    (hA : A ∈ chunksOf g l) {x : γ} (hx : x ∈ A) : x ∈ l := by
  rw [← flatten_chunksOf hg l]
  exact List.mem_flatten.mpr ⟨A, hA, hx⟩

theorem chunksOf_props {g : Nat} (hg : 0 < g) (l : List γ) :
    ∀ A ∈ chunksOf g l, A ≠ [] ∧ A.length ≤ g := by
  suffices H : ∀ n (l : List γ), l.length ≤ n →
      ∀ A ∈ chunksOf g l, A ≠ [] ∧ A.length ≤ g from
    H l.length l le_rfl
  intro n
  induction n with
  | zero =>
    intro l hl A hA
    rw [List.length_eq_zero.mp (Nat.le_zero.mp hl), chunksOf_nil] at hA
    exact absurd hA (List.not_mem_nil A)
  | succ n ih =>
    intro l hl A hA
    rcases eq_or_ne l [] with h | h
    · rw [h, chunksOf_nil] at hA
      exact absurd hA (List.not_mem_nil A)
    · rw [chunksOf_cons hg h] at hA
      rcases List.mem_cons.mp hA with hA | hA
      · subst hA
        refine ⟨?_, by simpa using Nat.min_le_left g l.length⟩
        simp only [ne_eq, List.take_eq_nil_iff]
        push_neg
        exact ⟨Nat.pos_iff_ne_zero.mp hg, h⟩
      · exact ih (l.drop g) (by simp [List.length_drop]; omega) A hA

theorem length_chunksOf {g : Nat} (hg : 0 < g) (l : List γ) :
    (chunksOf g l).length = (l.length + g - 1) / g := by
  suffices H : ∀ n (l : List γ), l.length ≤ n →
      (chunksOf g l).length = (l.length + g - 1) / g from
    H l.length l le_rfl
  intro n
  induction n with
  | zero =>
    intro l hl
    rw [List.length_eq_zero.mp (Nat.le_zero.mp hl), chunksOf_nil]
    simp [Nat.div_eq_of_lt (show g - 1 < g by omega)]
  | succ n ih =>
    intro l hl
    rcases eq_or_ne l [] with h | h
    · rw [h, chunksOf_nil]
      simp [Nat.div_eq_of_lt (show g - 1 < g by omega)]
    · have hpos : 0 < l.length := List.length_pos.mpr h
      rw [chunksOf_cons hg h, List.length_cons,
        ih (l.drop g) (by simp [List.length_drop]; omega), List.length_drop]
      have h1 : l.length + g - 1 = (l.length - 1) + g := by omega
      rw [h1, Nat.add_div_right _ hg]
      rcases le_or_lt l.length g with hle | hlt
      · have h2 : l.length - g = 0 := by omega
        rw [h2]
        have h3 : (0 + g - 1) / g = 0 := Nat.div_eq_of_lt (by omega)
        have h4 : (l.length - 1) / g = 0 := Nat.div_eq_of_lt (by omega)
        rw [h3, h4]
      · have h2 : l.length - g + g - 1 = (l.length - 1 - g) + g := by omega
        rw [h2, Nat.add_div_right _ hg]
        have h3 : l.length - 1 = (l.length - 1 - g) + g := by omega
        rw [h3, Nat.add_div_right _ hg, Nat.add_sub_cancel]

theorem slice_take (c i : Nat) (l : List γ) :
    (l.drop (i * c)).take (min ((i + 1) * c) l.length - i * c)
      = (l.drop (i * c)).take c := by
  rw [List.take_eq_take]
  simp only [List.length_drop, Nat.succ_mul]
  omega

theorem ceil_div_pos (c n : Nat) (hc : 0 < c) (hn : 0 < n) :
    (n + c - 1) / c = (n - 1) / c + 1 := by
  have h3 : n + c - 1 = (n - 1) + c := by omega
  rw [h3, Nat.add_div_right _ hc]

theorem ceil_div_drop (c n : Nat) (hc : 0 < c) (hn : 0 < n) :
    (n - 1) / c = ((n - c) + c - 1) / c := by
  rcases le_or_lt n c with h | h
  · have h1 : n - c = 0 := by omega
    rw [h1, Nat.zero_add, Nat.div_eq_of_lt (show n - 1 < c by omega),
      Nat.div_eq_of_lt (show c - 1 < c by omega)]
  · have h2 : n - c + c - 1 = (n - 1 - c) + c := by omega
    have h3 : n - 1 = (n - 1 - c) + c := by omega
    rw [h2, Nat.add_div_right _ hc]
    conv_lhs => rw [h3]
    rw [Nat.add_div_right _ hc]

theorem sliceChunks_eq_chunksOf {c : Nat} (hc : 0 < c) (l : List γ) :
    (List.range ((l.length + c - 1) / c)).map (fun i => (l.drop (i * c)).take c)
      = chunksOf c l := by
  suffices H : ∀ n (l : List γ), l.length ≤ n →
      (List.range ((l.length + c - 1) / c)).map (fun i => (l.drop (i * c)).take c)
        = chunksOf c l from H l.length l le_rfl
  intro n
  induction n with
  | zero =>
    intro l hl
    rw [List.length_eq_zero.mp (Nat.le_zero.mp hl), chunksOf_nil]
    rw [show (([] : List γ).length + c - 1) / c = 0 from
      Nat.div_eq_of_lt (by simp; omega)]
    simp
  | succ n ih =>
    intro l hl
    rcases eq_or_ne l [] with h | h
    · rw [h, chunksOf_nil]
      rw [show (([] : List γ).length + c - 1) / c = 0 from
        Nat.div_eq_of_lt (by simp; omega)]
      simp
    · have hpos : 0 < l.length := List.length_pos.mpr h
      rw [ceil_div_pos c l.length hc hpos, List.range_succ_eq_map, List.map_cons,
        chunksOf_cons hc h]
      have hk : ((l.drop c).length + c - 1) / c = (l.length - 1) / c := by
        rw [List.length_drop]
        exact (ceil_div_drop c l.length hc hpos).symm
      congr 1
      · simp
      · rw [← ih (l.drop c) (by simp [List.length_drop]; omega), hk, List.map_map]
        refine List.map_congr_left fun i hi => ?_
        simp only [Function.comp_apply]
        rw [List.drop_drop, Nat.succ_mul, Nat.add_comm c (i * c)]

theorem fileChunks_eq_chunksOf (c : Nat) (hc : 0 < c) (l : List (α × β))
    (hn : c < l.length) : fileChunks c l = chunksOf c l := by
  rw [fileChunks, if_pos hn,
    show (fun i => (l.drop (i * c)).take (min ((i + 1) * c) l.length - i * c))
        = fun i => (l.drop (i * c)).take c from funext fun i => slice_take c i l]
  exact sliceChunks_eq_chunksOf hc l

/-! ### Sortedness lemmas -/

theorem pairwise_sortRows [LinearOrder α] (t : List (α × β)) :
    List.Pairwise (fun a b => a.1 ≤ b.1) (sortRows t) := by
  have h := @List.sorted_mergeSort (α × β) (fun a b => decide (a.1 ≤ b.1))
    (fun a b c hab hbc => by
      simp only [decide_eq_true_eq] at hab hbc ⊢
      exact le_trans hab hbc)
    (fun a b => by
      simp only [Bool.or_eq_true, decide_eq_true_eq]
      exact le_total a.1 b.1)
    t
  exact h.imp fun hab => by simpa using hab

theorem length_sortRows [LinearOrder α] (t : List (α × β)) :
    (sortRows t).length = t.length :=
  (List.mergeSort_perm t _).length_eq

theorem foldl_min_mem [LinearOrder α] (rs : List (α × β)) (a : α) :
    rs.foldl (fun m x => min m x.1) a = a
      ∨ ∃ x ∈ rs, rs.foldl (fun m x => min m x.1) a = x.1 := by
  induction rs generalizing a with
  | nil => exact Or.inl rfl
  | cons y ys ih =>
    rcases ih (min a y.1) with h | ⟨x, hx, h⟩
    · rcases min_choice a y.1 with hm | hm
      · exact Or.inl (by rw [List.foldl_cons, h, hm])
      · exact Or.inr ⟨y, List.mem_cons_self y ys, by rw [List.foldl_cons, h, hm]⟩
    · exact Or.inr ⟨x, List.mem_cons_of_mem y hx, by rw [List.foldl_cons, h]⟩

theorem foldl_max_mem [LinearOrder α] (rs : List (α × β)) (a : α) :
    rs.foldl (fun m x => max m x.1) a = a
      ∨ ∃ x ∈ rs, rs.foldl (fun m x => max m x.1) a = x.1 := by
  induction rs generalizing a with
  | nil => exact Or.inl rfl
  | cons y ys ih =>
    rcases ih (max a y.1) with h | ⟨x, hx, h⟩
    · rcases max_choice a y.1 with hm | hm
      · exact Or.inl (by rw [List.foldl_cons, h, hm])
      · exact Or.inr ⟨y, List.mem_cons_self y ys, by rw [List.foldl_cons, h, hm]⟩
    · exact Or.inr ⟨x, List.mem_cons_of_mem y hx, by rw [List.foldl_cons, h]⟩

theorem foldl_minmax_split [LinearOrder α] (rs : List (α × β)) (a b : α) :
    rs.foldl (fun acc x => (min acc.1 x.1, max acc.2 x.1)) (a, b)
      = (rs.foldl (fun m x => min m x.1) a, rs.foldl (fun m x => max m x.1) b) := by
  induction rs generalizing a b with
  | nil => rfl
  | cons y ys ih => rw [List.foldl_cons, List.foldl_cons, List.foldl_cons, ih]

theorem chunkStats_mem [LinearOrder α] {A : List (α × β)} (h : A ≠ []) :
    ∃ s, chunkStats A = some s ∧ (∃ x ∈ A, s.1 = x.1) ∧ (∃ y ∈ A, s.2 = y.1) := by
  rcases A with _ | ⟨r, rs⟩
  · exact absurd rfl h
  · refine ⟨_, rfl, ?_, ?_⟩
    · rw [foldl_minmax_split]
      rcases foldl_min_mem rs r.1 with hm | ⟨x, hx, hm⟩
      · exact ⟨r, List.mem_cons_self r rs, hm⟩
      · exact ⟨x, List.mem_cons_of_mem r hx, hm⟩
    · rw [foldl_minmax_split]
      rcases foldl_max_mem rs r.1 with hm | ⟨x, hx, hm⟩
      · exact ⟨r, List.mem_cons_self r rs, hm⟩
      · exact ⟨x, List.mem_cons_of_mem r hx, hm⟩

theorem chain_chunksOf [LinearOrder α] {g : Nat} (hg : 0 < g) :
    ∀ {l : List (α × β)}, List.Pairwise (fun a b => a.1 ≤ b.1) l →
      List.Chain' (fun A B => ∀ x ∈ A, ∀ y ∈ B, x.1 ≤ y.1) (chunksOf g l) := by
  suffices H : ∀ n (l : List (α × β)), l.length ≤ n →
      List.Pairwise (fun a b => a.1 ≤ b.1) l →
      List.Chain' (fun A B => ∀ x ∈ A, ∀ y ∈ B, x.1 ≤ y.1) (chunksOf g l) from
    fun l hs => H l.length l le_rfl hs
  intro n
  induction n with
  | zero =>
    intro l hl _
    rw [List.length_eq_zero.mp (Nat.le_zero.mp hl), chunksOf_nil]
    exact List.chain'_nil
  | succ n ih =>
    intro l hl hs
    rcases eq_or_ne l [] with h | h
    · rw [h, chunksOf_nil]
      exact List.chain'_nil
    · rw [chunksOf_cons hg h, List.chain'_cons']
      have hcross : ∀ x ∈ l.take g, ∀ y ∈ l.drop g, x.1 ≤ y.1 :=
        (List.pairwise_append.mp (by rwa [List.take_append_drop])).2.2
      refine ⟨?_, ih (l.drop g) (by simp [List.length_drop]; omega)
        (hs.sublist (List.drop_sublist g l))⟩
      intro B hB x hx y hy
      have hBmem : B ∈ chunksOf g (l.drop g) := List.mem_of_mem_head? hB
      exact hcross x hx y (mem_chunksOf hg hBmem hy)

theorem chain_stats [LinearOrder α] :
    ∀ chunks : List (List (α × β)), (∀ A ∈ chunks, A ≠ []) →
      List.Chain' (fun A B => ∀ x ∈ A, ∀ y ∈ B, x.1 ≤ y.1) chunks →
      List.Chain' (fun s u => s.2 ≤ u.1) (chunks.filterMap chunkStats) := by
  intro chunks
  induction chunks with
  | nil =>
    intro _ _
    exact List.chain'_nil
  | cons A rest ih =>
    intro hne hch
    obtain ⟨s, hsA, _, ⟨yA, hyA, hs2⟩⟩ :=
      chunkStats_mem (hne A (List.mem_cons_self A rest))
    rw [List.filterMap_cons, hsA, List.chain'_cons']
    refine ⟨?_, ih (fun B hB => hne B (List.mem_cons_of_mem A hB)) hch.tail⟩
    intro u hu
    rcases rest with _ | ⟨B, rest'⟩
    · simp at hu
    · obtain ⟨w, hwB, ⟨xB, hxB, hw1⟩, _⟩ :=
        chunkStats_mem (hne B (List.mem_cons_of_mem A (List.mem_cons_self B rest')))
      rw [List.filterMap_cons, hwB] at hu
      simp only [List.head?_cons, Option.mem_def, Option.some.injEq] at hu
      subst hu
      rw [hs2, hw1]
      exact (List.chain'_cons.mp hch).1 yA hyA xB hxB

theorem overlapCount_eq_zero_of_chain [LinearOrder α] {l : List (α × α)}
    (h : List.Chain' (fun s u => s.2 ≤ u.1) l) : overlapCount l = 0 := by
  induction l with
  | nil => rfl
  | cons s l ih =>
    rcases l with _ | ⟨u, l'⟩
    · rfl
    · have hsu : s.2 ≤ u.1 := (List.chain'_cons.mp h).1
      have h0 : overlapCount (u :: l') = 0 := ih (List.chain'_cons.mp h).2
      rcases s with ⟨mn, mx⟩
      rcases u with ⟨un, ux⟩
      simp only [overlapCount, List.foldl_cons, overlapStep] at h0 ⊢
      rw [if_neg (not_lt.mpr hsu)]
      exact h0

/-! ### Theorems about the layout optimizer -/

/-- C1: a table that fits in a single output file (row count does not
exceed the per-file cap) is written as exactly one file holding the fully
sorted rows, and for any row-group size the row groups' statistics satisfy
`max ≤` next `min` in physical order, so the pruning simulator's overlap
count over them is exactly 0. -/
theorem optimizer_single_file_no_overlap (t : List (String × β)) (c g : Nat)
    (hc : t.length ≤ c) :
    optimize_parquet_file c t = [sortRows t]
    ∧ List.Chain' (fun s u => s.2 ≤ u.1) (layoutStats (chunksOf g (sortRows t)))
    ∧ overlapCount (layoutStats (chunksOf g (sortRows t))) = 0 := by
  refine ⟨?_, ?_⟩
  · rw [optimize_parquet_file, fileChunks, if_neg]
    rw [length_sortRows]
    omega
  · rcases Nat.eq_zero_or_pos g with hg | hg
    · rw [hg, chunksOf_zero]
      exact ⟨List.chain'_nil, rfl⟩
    · have hchain := chain_stats (chunksOf g (sortRows t))
        (fun A hA => (chunksOf_props hg _ A hA).1)
        (chain_chunksOf hg (pairwise_sortRows t))
      exact ⟨hchain, overlapCount_eq_zero_of_chain hchain⟩

/-- Witness for `optimizer_single_file_no_overlap`: the spec's end-to-end
scenario (rows with keys `b`, `a`, `c`, one row per row group). -/
theorem optimizer_single_file_no_overlap_witness :
    optimize_parquet_file 3 ([("b", 1), ("a", 2), ("c", 3)] : List (String × Nat))
        = [sortRows [("b", 1), ("a", 2), ("c", 3)]]
    ∧ overlapCount (layoutStats (chunksOf 1
        (sortRows ([("b", 1), ("a", 2), ("c", 3)] : List (String × Nat))))) = 0 := by
  have h := optimizer_single_file_no_overlap
    ([("b", 1), ("a", 2), ("c", 3)] : List (String × Nat)) 3 1 (by decide)
  exact ⟨h.1, h.2.2⟩

/-- C5: the optimizer's output, and in particular the row sequence of every
output partition, is a deterministic function of the input table and the
row-cap configuration — two runs on identical input and configuration
produce identical output (the model's sort is the stable `mergeSort`, and
chunk boundaries depend only on row count and cap). -/
theorem optimizer_deterministic [LinearOrder α] (t₁ t₂ : List (α × β))
    (c₁ c₂ : Nat) (ht : t₁ = t₂) (hc : c₁ = c₂) :
    optimize_parquet_file c₁ t₁ = optimize_parquet_file c₂ t₂ := by
  rw [ht, hc]

/-- Witness for `optimizer_deterministic`. -/
theorem optimizer_deterministic_witness :
    optimize_parquet_file 1 ([(2, 0), (1, 1)] : List (Nat × Nat))
      = optimize_parquet_file 1 ([(2, 0), (1, 1)] : List (Nat × Nat)) :=
  optimizer_deterministic [(2, 0), (1, 1)] [(2, 0), (1, 1)] 1 1 rfl rfl

/-- C6: when the input exceeds the row cap, concatenating the output
chunks in chunk-index order yields exactly the sorted row sequence, the
sorted sequence is a permutation of the input (no row dropped or
duplicated), and the total output row count equals the input row count. -/
theorem chunk_split_preserves_rows [LinearOrder α] (t : List (α × β)) (c : Nat)
    (hc : 0 < c) (hn : c < t.length) :
    (optimize_parquet_file c t).flatten = sortRows t
    ∧ List.Perm (sortRows t) t
    ∧ ((optimize_parquet_file c t).map List.length).sum = t.length := by
  have hlen : (sortRows t).length = t.length := length_sortRows t
  have h1 : (optimize_parquet_file c t).flatten = sortRows t := by
    rw [optimize_parquet_file, fileChunks_eq_chunksOf c hc _ (by omega)]
    exact flatten_chunksOf hc _
  refine ⟨h1, List.mergeSort_perm t _, ?_⟩
  rw [← List.length_flatten, h1, hlen]

/-- Witness for `chunk_split_preserves_rows` (3 rows, cap 2). -/
theorem chunk_split_preserves_rows_witness :
    (optimize_parquet_file 2 ([(2, 0), (1, 1), (3, 2)] : List (Nat × Nat))).flatten
        = sortRows [(2, 0), (1, 1), (3, 2)]
    ∧ List.Perm (sortRows ([(2, 0), (1, 1), (3, 2)] : List (Nat × Nat)))
        [(2, 0), (1, 1), (3, 2)]
    ∧ ((optimize_parquet_file 2 ([(2, 0), (1, 1), (3, 2)] : List (Nat × Nat))).map
        List.length).sum = 3 :=
  chunk_split_preserves_rows [(2, 0), (1, 1), (3, 2)] 2 (by decide) (by decide)

/-- C10: under a positive row cap `c` with `c < n` rows, the optimizer
produces exactly `⌈n / c⌉ = (n + c - 1) / c` chunks; chunk `i` is the
contiguous slice of the sorted rows from `i * c` to `min((i + 1) * c, n)`;
every chunk is non-empty with at most `c` rows; and the chunks concatenate
back to the sorted rows (pairwise disjoint, jointly covering). -/
theorem chunk_split_invariants [LinearOrder α] (t : List (α × β)) (c : Nat)
    (hc : 0 < c) (hn : c < t.length) :
    (optimize_parquet_file c t).length = (t.length + c - 1) / c
    ∧ (∀ i, (hi : i < (optimize_parquet_file c t).length) →
        (optimize_parquet_file c t)[i]
          = ((sortRows t).drop (i * c)).take (min ((i + 1) * c) t.length - i * c))
    ∧ (∀ ch ∈ optimize_parquet_file c t, ch ≠ [] ∧ ch.length ≤ c)
    ∧ (optimize_parquet_file c t).flatten = sortRows t := by
  have hlen : (sortRows t).length = t.length := length_sortRows t
  have heq : optimize_parquet_file c t = chunksOf c (sortRows t) := by
    rw [optimize_parquet_file]
    exact fileChunks_eq_chunksOf c hc _ (by omega)
  refine ⟨?_, ?_, ?_, ?_⟩
  · rw [heq, length_chunksOf hc, hlen]
  · intro i hi
    have hif : (sortRows t).length > c := by omega
    simp only [optimize_parquet_file, fileChunks, if_pos hif] at hi ⊢
    rw [List.getElem_map, List.getElem_range, hlen]
  · rw [heq]
    exact chunksOf_props hc _
  · rw [heq]
    exact flatten_chunksOf hc _

/-- Witness for `chunk_split_invariants` (3 rows, cap 2: 2 chunks). -/
theorem chunk_split_invariants_witness :
    ((optimize_parquet_file 2 ([(2, 0), (1, 1), (3, 2)] : List (Nat × Nat))).length
        = (3 + 2 - 1) / 2)
    ∧ (∀ ch ∈ optimize_parquet_file 2 ([(2, 0), (1, 1), (3, 2)] : List (Nat × Nat)),
        ch ≠ [] ∧ ch.length ≤ 2) := by
  have h := chunk_split_invariants ([(2, 0), (1, 1), (3, 2)] : List (Nat × Nat)) 2
    (by decide) (by decide)
  exact ⟨h.1, h.2.2.1⟩

end FrontTest
